import Mathlib

/-
Verification development for the quickpaint style-transfer pipeline
(quickpaint.py).  The orchestration layer is embedded shallowly:

  * pixel data is exact rational arithmetic (the source works on float32
    values in [0, 255] read from 8-bit images);
  * an image is a height × width × channel nested list, mirroring a numpy
    ndarray of shape (H, W, C);
  * the external collaborators (image decoding `read_img` / `imread`, and
    the pre-trained network `transform.net` run through `sess.run`) are an
    oracle record: the image reader is a total function on paths, the
    network is a per-device batch-to-batch function that may raise a
    TensorFlow error (in particular `ResourceExhaustedError`);
  * image writes (`imsave`) are recorded as an ordered event list of
    (path, image) pairs; the codec itself is out of scope per the spec;
  * Python exceptions are an explicit error value that aborts the rest of
    the call while keeping the writes already performed;
  * the mutual recursion transfer → eval → transfer is driven by a fuel
    parameter consumed at each `eval` entry; running out of fuel is the
    distinguished error `RunErr.fuelOut`.
-/

namespace QuickPaint

/-- Pixel values: float32 data modeled as exact rationals. -/
abbrev Pix := ℚ

/-- An image: rows × columns × channels, numpy shape (H, W, C). -/
abbrev Img := List (List (List Pix))

/-- A numpy shape tuple (H, W, C). -/
abbrev Shape := Nat × Nat × Nat

/-- `img.shape` of a (well-formed, rectangular) 3-d array. -/
def imgShape (im : Img) : Shape :=
  (im.length, (im.headD []).length, ((im.headD []).headD []).length)

/-- Apply a function to every pixel (numpy elementwise unary op). -/
def imgMap (f : Pix → Pix) (im : Img) : Img :=
  im.map fun row => row.map fun px => px.map f

/-- numpy `np.multiply`: elementwise product of two arrays.  The modeled
runs only multiply arrays of identical shape, so plain `zipWith` nesting
(which truncates to the common extent) coincides with numpy there. -/
def imgMul (a b : Img) : Img :=
  List.zipWith (fun ra rb =>
    List.zipWith (fun pa pb => List.zipWith (· * ·) pa pb) ra rb) a b

/-- `x * s` for a scalar `s` (numpy broadcast of a scalar). -/
def imgScale (s : ℚ) (im : Img) : Img :=
  imgMap (fun p => p * s) im

/-- `arr.max()` over all elements.  Image data is nonnegative (decoded
8-bit pixels and the zero-initialised batch buffer), so folding `max`
from `0` agrees with numpy's maximum on the modeled inputs. -/
def imgMax (im : Img) : Pix :=
  im.flatten.flatten.foldr max 0

/-- `np.clip(v, 0, 255).astype(np.uint8)` on one value: clamp to
[0, 255], then truncate to an integer (the value is nonnegative after
clipping, so uint8 conversion is the floor). -/
def clipCast (p : Pix) : Pix :=
  ((⌊max 0 (min p 255)⌋ : ℤ) : ℚ)

/-- The clip-and-cast applied to a whole predicted image. -/
def clipCastImg (im : Img) : Img :=
  imgMap clipCast im

/-- `img[0:h, 0:w, :]`: crop to the top-left (h, w) region, keeping all
channels. -/
def cropTo (sh : Shape) (im : Img) : Img :=
  (im.take sh.1).map fun row => row.take sh.2.1

/-- `np.zeros(shape)` for one image of the given shape. -/
def zeroImg (sh : Shape) : Img :=
  List.replicate sh.1 (List.replicate sh.2.1 (List.replicate sh.2.2 0))

/-- TensorFlow errors that `sess.run` may raise. -/
inductive TFErr where
  | resourceExhausted
  | otherErr
deriving DecidableEq, Repr

/-- Errors aborting a run: a TensorFlow error, a Python `IndexError`,
a `NameError` (using `_preds` when the fill loop never ran), a
`ZeroDivisionError` (batch size 0), or fuel exhaustion of the model's
recursion counter. -/
inductive RunErr where
  | tf (e : TFErr)
  | indexErr
  | nameErr
  | zeroDiv
  | fuelOut
deriving DecidableEq, Repr

/-- The external collaborators: `readImg` models `read_img`/`imread`
(with `mode='RGB'` the decoder always yields an H × W × 3 array, so
`read_img`'s grayscale `dstack` branch never fires and both readers
coincide); `net` models running the restored `transform.net` forward
computation on the session's device. -/
structure Oracle where
  readImg : String → Img
  net : String → List Img → Except TFErr (List Img)

/-- Result of a call: the ordered image writes performed, the TF session
contexts constructed (device, batch size placed into the placeholder),
and the error that aborted the call, if any. -/
structure Res where
  writes : List (String × Img)
  sessions : List (String × Nat)
  err : Option RunErr
deriving DecidableEq, Repr

/-- Lines 134–139 of the source: with `mask == 1`, threshold at
`x[i].max() * 0.01` (note: index `i`, the outer batch index), build the
binary mask `np.where(x[j] > thr, 1, 0)` from `x[j]`, crop the
prediction on shape mismatch, and multiply the mask in. -/
def maskStep (x : List Img) (i j : Nat) (img : Img) : Except RunErr Img :=
  match x[i]?, x[j]? with
  | some xi, some xj =>
    let thr := imgMax xi * (1 / 100)
    let inmask := imgMap (fun p => if thr < p then 1 else 0) xj
    let img' := if imgShape inmask ≠ imgShape img then cropTo (imgShape inmask) img else img
    .ok (imgMul inmask img')
  | _, _ => .error .indexErr

/-- Lines 141–145 of the source: with `blend > 0`, scale `x[i]` (again
index `i`) by the blend factor, crop the prediction on shape mismatch,
and multiply elementwise. -/
def blendStep (blend : ℚ) (x : List Img) (i : Nat) (img : Img) : Except RunErr Img :=
  match x[i]? with
  | some xi =>
    let inimg := imgScale blend xi
    let img' := if imgShape inimg ≠ imgShape img then cropTo (imgShape inimg) img else img
    .ok (imgMul inimg img')
  | none => .error .indexErr

/-- Lines 132–145: clip/cast the prediction for output slot `j` of batch
`i`, then apply mask and blend post-processing in that order. -/
def postProcess (mask : Nat) (blend : ℚ) (x : List Img) (i j : Nat) (pred : Img) :
    Except RunErr Img :=
  match (if mask = 1 then maskStep x i j (clipCastImg pred) else .ok (clipCastImg pred)) with
  | .error e => .error e
  | .ok img => if 0 < blend then blendStep blend x i img else .ok img

/-- Lines 126–128: the batch-fill loop.  Each image of the current batch
slice is decoded into buffer slot `j`, and the forward computation is
re-run after every single fill (the redundant execution documented in the
spec); the `_preds` visible afterwards is the last run's result, or
absent when the loop body never ran. -/
def fillRun (o : Oracle) (dev : String) :
    List Img → Nat → List String → Except TFErr (List Img × Option (List Img))
  | x, _, [] => .ok (x, none)
  | x, j, p :: ps =>
    let x' := x.set j (o.readImg p)
    match o.net dev x' with
    | .error e => .error e
    | .ok preds =>
      match fillRun o dev x' (j + 1) ps with
      | .error e => .error e
      | .ok (xf, some pr) => .ok (xf, some pr)
      | .ok (xf, none) => .ok (xf, some preds)

/-- Lines 131–147: the per-batch output loop over `curr_batch_out`,
writing each post-processed image; an exception keeps earlier writes. -/
def outLoop (mask : Nat) (blend : ℚ) (x preds : List Img) (i : Nat) :
    Nat → List String → List (String × Img) × Option RunErr
  | _, [] => ([], none)
  | j, pout :: rest =>
    match preds[j]? with
    | none => ([], some .indexErr)
    | some pr =>
      match postProcess mask blend x i j pr with
      | .error e => ([], some e)
      | .ok img =>
        let r := outLoop mask blend x preds i (j + 1) rest
        ((pout, img) :: r.1, r.2)

/-- Lines 118–147: `for i in range(num_iters)`, sliced batches, the
zero-initialised buffer of `batch_size` image slots, fill/run, then the
output loop.  The second argument counts the iterations still to do. -/
def batchLoopGo (o : Oracle) (sessDev : String) (B mask : Nat) (blend : ℚ) (shape : Shape)
    (data_in paths_out : List String) : Nat → Nat → List (String × Img) × Option RunErr
  | _, 0 => ([], none)
  | i, k + 1 =>
    let bin := (data_in.drop (i * B)).take B
    let bout := (paths_out.drop (i * B)).take B
    match fillRun o sessDev (List.replicate B (zeroImg shape)) 0 bin with
    | .error e => ([], some (.tf e))
    | .ok (_, none) => ([], some .nameErr)
    | .ok (x, some preds) =>
      match outLoop mask blend x preds i 0 bout with
      | (ws, some e) => (ws, some e)
      | (ws, none) =>
        let r := batchLoopGo o sessDev B mask blend shape data_in paths_out (i + 1) k
        (ws ++ r.1, r.2)

/-- The body of `transfer` (lines 81–155), abstracted over the `eval`
entry point it recurses into for the remainder.  `sessDev` is the device
the surrounding session was placed on; `device` is the parameter passed
through to the recursive `eval`.  `read_img(data_in[0])` fixes the
buffer shape (an empty input list is Python's `IndexError`), the number
of full batches is `len(paths_out) // batch_size` (`int()` of the float
division; `batch_size == 0` is a `ZeroDivisionError`), and any nonempty
remainder is handed to `evalFn` with the same settings. -/
def transferCore
    (evalFn : List String → List String → String → String → Nat → Nat → ℚ → Res)
    (o : Oracle) (sessDev : String) (data_in paths_out : List String)
    (model_path device : String) (batch_size mask : Nat) (blend : ℚ) : Res :=
  match data_in with
  | [] => ⟨[], [], some .indexErr⟩
  | d0 :: _ =>
    let shape := imgShape (o.readImg d0)
    if batch_size = 0 then ⟨[], [], some .zeroDiv⟩
    else
      let numIters := paths_out.length / batch_size
      match batchLoopGo o sessDev batch_size mask blend shape data_in paths_out 0 numIters with
      | (ws, some e) => ⟨ws, [], some e⟩
      | (ws, none) =>
        let remIn := data_in.drop (numIters * batch_size)
        let remOut := paths_out.drop (numIters * batch_size)
        if 0 < remIn.length then
          let r := evalFn remIn remOut model_path device batch_size mask blend
          ⟨ws ++ r.writes, r.sessions, r.err⟩
        else ⟨ws, [], none⟩

/-- `eval` (lines 158–182): clamp the batch size to
`min(len(paths_out), batch_size)`, attempt `transfer` in a session on the
configured device, and on `ResourceExhaustedError` re-run the identical
request in a fresh session pinned to `/cpu:0`.  Fuel bounds the
transfer → eval recursion depth. -/
def evalF (o : Oracle) :
    Nat → List String → List String → String → String → Nat → Nat → ℚ → Res
  | 0, _, _, _, _, _, _, _ => ⟨[], [], some .fuelOut⟩
  | fuel + 1, data_in, paths_out, model_path, device, batch_size, mask, blend =>
    let B := min paths_out.length batch_size
    let r1 := transferCore (evalF o fuel) o device data_in paths_out model_path device B mask blend
    match r1.err with
    | some (.tf .resourceExhausted) =>
      let r2 :=
        transferCore (evalF o fuel) o "/cpu:0" data_in paths_out model_path device B mask blend
      ⟨r1.writes ++ r2.writes,
       (device, B) :: r1.sessions ++ ("/cpu:0", B) :: r2.sessions, r2.err⟩
    | _ => ⟨r1.writes, (device, B) :: r1.sessions, r1.err⟩

/-- `transfer` proper: `transferCore` with the remainder recursion wired
to `eval` at the given fuel. -/
def transferF (o : Oracle) (fuel : Nat) (sessDev : String) (data_in paths_out : List String)
    (model_path device : String) (batch_size mask : Nat) (blend : ℚ) : Res :=
  transferCore (evalF o fuel) o sessDev data_in paths_out model_path device batch_size mask blend

/-- The shape groups of `eval_mul_dims` (lines 189–200): an ordered
association list from a shape key to the two parallel path sequences
collected so far.  The source keeps two `defaultdict(list)`s fed with
the same key at the same step; one assoc list holding both sequences is
the same structure.  The `"%dx%dx%d"` string key is injective on shape
triples (decimal digits never contain the separator), so the key is the
shape tuple itself. -/
abbrev Groups := List (Shape × List String × List String)

/-- Append one (input, output) pair to the group of key `k`, creating
the group at the end on first occurrence (dict insertion order). -/
def addToGroups (k : Shape) (pin pout : String) : Groups → Groups
  | [] => [(k, ([pin], [pout]))]
  | g :: gs =>
    if g.1 = k then (k, (g.2.1 ++ [pin], g.2.2 ++ [pout])) :: gs
    else g :: addToGroups k pin pout gs

/-- The grouping loop of lines 193–200 over the remaining (input,
output) pairs, carrying the groups built so far. -/
def groupsGo (shapeOf : String → Shape) (gs : Groups) : List (String × String) → Groups
  | [] => gs
  | pr :: rest => groupsGo shapeOf (addToGroups (shapeOf pr.1) pr.1 pr.2 gs) rest

/-- The complete grouping pass of `eval_mul_dims`: every aligned pair is
keyed by the shape of the decoded input image. -/
def shapeGroups (shapeOf : String → Shape) (in_path out_path : List String) : Groups :=
  groupsGo shapeOf [] (List.zip in_path out_path)

/-- Lookup of a group's two sequences by key (first entry with the key,
matching where `addToGroups` appends). -/
def findGroup (k : Shape) : Groups → Option (List String × List String)
  | [] => none
  | g :: gs => if g.1 = k then some g.2 else findGroup k gs

/-- Run `eval` on every shape group in discovery order (lines 202–205),
stopping at the first propagated error. -/
def runGroups (o : Oracle) (fuel : Nat) (model_path device : String)
    (batch_size mask : Nat) (blend : ℚ) : Groups → Res
  | [] => ⟨[], [], none⟩
  | g :: gs =>
    let r := evalF o fuel g.2.1 g.2.2 model_path device batch_size mask blend
    match r.err with
    | some e => ⟨r.writes, r.sessions, some e⟩
    | none =>
      let rest := runGroups o fuel model_path device batch_size mask blend gs
      ⟨r.writes ++ rest.writes, r.sessions ++ rest.sessions, rest.err⟩

/-- `eval_mul_dims` (lines 185–205): group aligned path lists by the
exact decoded shape of each input image, then evaluate per group. -/
def eval_mul_dims (o : Oracle) (fuel : Nat) (in_path out_path : List String)
    (model_path device : String) (batch_size mask : Nat) (blend : ℚ) : Res :=
  runGroups o fuel model_path device batch_size mask blend
    (shapeGroups (fun p => imgShape (o.readImg p)) in_path out_path)

/-- The configuration record produced by argument parsing.  argparse
already guarantees the declared types (`type=int` for the batch size and
the mask flag, `type=float` for blend), so the two `isinstance` asserts
of lines 63 and 65 hold by construction. -/
structure Opts where
  model_path : String
  in_path : String
  out_path : String
  device : String
  batch_size : Int
  mask : Int
  blend : ℚ
deriving DecidableEq, Repr

/-- The configuration errors raised by the asserts of lines 53–67. -/
inductive CfgErr where
  | missingInput
  | badBatch
  | badMask
  | badBlend
deriving DecidableEq, Repr

/-- Side effects `get_opts` may perform before returning. -/
inductive Action where
  | makeDir
  | readImage
  | loadModel
  | writeOutput
deriving DecidableEq, Repr

/-- The validation part of `get_opts` (lines 52–69), over an environment
predicate for `os.path.exists`: assert the input path exists, possibly
create the output directory (when the output path has no dot and does
not exist), then assert the batch size is positive, the mask flag is
binary, and blend is at most 1; on success the parsed options are
returned unchanged. -/
def get_opts (pathDoesExist : String → Bool) (o : Opts) : List Action × Except CfgErr Opts :=
  if ¬ pathDoesExist o.in_path then ([], .error .missingInput)
  else
    let acts := if ¬ o.out_path.contains '.' && ¬ pathDoesExist o.out_path
      then [Action.makeDir] else []
    if ¬ 0 < o.batch_size then (acts, .error .badBatch)
    else if ¬ (o.mask = 1 ∨ o.mask = 0) then (acts, .error .badMask)
    else if ¬ o.blend ≤ 1 then (acts, .error .badBlend)
    else (acts, .ok o)

/-- The content on disk at a path after a run: the last write wins
(writes are idempotent per path and later writes overwrite). -/
def writtenAt : List (String × Img) → String → Option Img
  | [], _ => none
  | w :: ws, p =>
    match writtenAt ws p with
    | some im => some im
    | none => if w.1 = p then some w.2 else none

/-- Pixel access at (row, column, channel). -/
def pixAt (im : Img) (r c ch : Nat) : Pix :=
  ((im.getD r []).getD c []).getD ch 0

/-- A concrete environment: every path decodes to the same 1×1×3 image
of value 100, and the network is the identity on its batch on every
device. -/
def idNetOracle : Oracle :=
  ⟨fun _ => [[[100, 100, 100]]], fun _ x => .ok x⟩

/-- A concrete environment for the masking scenario: the third image has
pixel values (2, 250, 0), the fourth (10, 10, 10); the network is the
identity. -/
def maskOracle : Oracle :=
  ⟨fun p =>
      if p = "i2" then [[[2, 250, 0]]]
      else if p = "i3" then [[[10, 10, 10]]]
      else [[[100, 100, 100]]],
   fun _ x => .ok x⟩

/-- A concrete environment for the blending scenario: the third image is
constant 4, the fourth constant 8; the network is the identity. -/
def blendOracle : Oracle :=
  ⟨fun p =>
      if p = "i2" then [[[4, 4, 4]]]
      else if p = "i3" then [[[8, 8, 8]]]
      else [[[1, 1, 1]]],
   fun _ x => .ok x⟩

/-- A concrete environment whose network exhausts memory on `/gpu:0`
and is the identity on any other device. -/
def reOracle : Oracle :=
  ⟨fun _ => [[[100, 100, 100]]],
   fun dev x => if dev = "/gpu:0" then .error .resourceExhausted else .ok x⟩

/-- A well-behaved network environment: on every device the forward
computation succeeds and returns at least one prediction per batch
slot. -/
def NetOk (o : Oracle) : Prop :=
  ∀ dev x, ∃ ps, o.net dev x = .ok ps ∧ x.length ≤ ps.length

/-- A second environment differing from `idNetOracle` only on the image
at path `"unused"`. -/
def idNetOracle' : Oracle :=
  ⟨fun p => if p = "unused" then [[[7, 7, 7]]] else [[[100, 100, 100]]],
   fun _ x => .ok x⟩

/-- A concrete valid configuration. -/
def okOpts : Opts :=
  ⟨"cubist", "inputs/stanford.jpg", "outputs/out.jpg", "/gpu:0", 1, 0, 0⟩

/-- C1: on 7 aligned inputs/outputs with effective batch size 2 (so
7 % 2 ≠ 0) and mask = 1, `transfer` does not process the first
⌊7/2⌋·2 = 6 images and hand the 1 leftover to `eval`: the third full
batch indexes the 2-slot buffer at `x[2]`, the run aborts with an
IndexError after writing only 4 of the 7 outputs, and the remainder is
never handed to the recursion — outputs are silently dropped. -/
theorem claim_C1_remainder_lost :
    7 % 2 ≠ 0 ∧
    (transferF idNetOracle 3 "/gpu:0" ["a", "b", "c", "d", "e", "f", "g"]
        ["o0", "o1", "o2", "o3", "o4", "o5", "o6"] "m" "/gpu:0" 2 1 0).err =
      some RunErr.indexErr ∧
    (transferF idNetOracle 3 "/gpu:0" ["a", "b", "c", "d", "e", "f", "g"]
        ["o0", "o1", "o2", "o3", "o4", "o5", "o6"] "m" "/gpu:0" 2 1 0).writes.length = 4 := by
  refine ⟨by decide, ?_, ?_⟩ <;>
  norm_num +decide [transferF, transferCore, batchLoopGo, fillRun, outLoop, postProcess, maskStep,
    blendStep, idNetOracle, imgShape, imgMap, imgMul, imgScale, imgMax, clipCast, clipCastImg,
    cropTo, zeroImg, evalF, List.replicate, List.headD, Except.instMonad, Except.bind,
    Except.map, Except.pure]

/-- C2: with mask = 1 on 4 aligned images and batch size 2, the third
image (input pixel value 2, own maximum 250, so the pixel is ≤ 1 % of
its own maximum) is processed and written, yet its output pixel is 2,
not 0: the code thresholds at 1 % of `x[i].max()` with the outer batch
index `i`, here the maximum 10 of the fourth image, instead of the
image's own maximum. -/
theorem claim_C2_mask_misindexed :
    (transferF maskOracle 3 "/gpu:0" ["i0", "i1", "i2", "i3"]
        ["o0", "o1", "o2", "o3"] "m" "/gpu:0" 2 1 0).err = none ∧
    pixAt (maskOracle.readImg "i2") 0 0 0 ≤ imgMax (maskOracle.readImg "i2") * (1 / 100) ∧
    writtenAt (transferF maskOracle 3 "/gpu:0" ["i0", "i1", "i2", "i3"]
        ["o0", "o1", "o2", "o3"] "m" "/gpu:0" 2 1 0).writes "o2" = some [[[2, 250, 0]]] ∧
    pixAt [[[2, 250, 0]]] 0 0 0 ≠ 0 := by
  refine ⟨?_, ?_, ?_, ?_⟩ <;>
  norm_num +decide [transferF, transferCore, batchLoopGo, fillRun, outLoop, postProcess, maskStep,
    blendStep, maskOracle, imgShape, imgMap, imgMul, imgScale, imgMax, clipCast, clipCastImg,
    cropTo, zeroImg, evalF, writtenAt, pixAt, List.replicate, List.headD, Except.instMonad,
    Except.bind, Except.map, Except.pure]

/-- C3: with blend = 1/2, mask = 0 on 4 aligned images and batch size 2,
the output written for the third image is 16 = (1/2) · 8 · 4 — the blend
multiplicand is the batch buffer at the outer batch index `x[i]`, here
the fourth image (value 8) — whereas b · input · prediction with the
positionally corresponding input (value 4) is 8. -/
theorem claim_C3_blend_misindexed :
    (transferF blendOracle 3 "/gpu:0" ["i0", "i1", "i2", "i3"]
        ["o0", "o1", "o2", "o3"] "m" "/gpu:0" 2 0 (1 / 2)).err = none ∧
    writtenAt (transferF blendOracle 3 "/gpu:0" ["i0", "i1", "i2", "i3"]
        ["o0", "o1", "o2", "o3"] "m" "/gpu:0" 2 0 (1 / 2)).writes "o2" =
      some [[[16, 16, 16]]] ∧
    imgMul (imgScale (1 / 2) (blendOracle.readImg "i2"))
        (clipCastImg (blendOracle.readImg "i2")) = [[[8, 8, 8]]] ∧
    ([[[16, 16, 16]]] : Img) ≠ [[[8, 8, 8]]] := by
  refine ⟨?_, ?_, ?_, ?_⟩ <;>
  norm_num +decide [transferF, transferCore, batchLoopGo, fillRun, outLoop, postProcess, maskStep,
    blendStep, blendOracle, imgShape, imgMap, imgMul, imgScale, imgMax, clipCast, clipCastImg,
    cropTo, zeroImg, evalF, writtenAt, pixAt, List.replicate, List.headD, Except.instMonad,
    Except.bind, Except.map, Except.pure]

/-- C9: `get_opts` validation is exhaustive and non-destructive: the
options come back unchanged exactly when the input path exists, the
batch size is positive, the mask flag is binary and blend is at most 1;
any violation raises a configuration error; and no action other than
creating the output directory — in particular no image read, no model
load, no output write — happens before the checks finish. -/
theorem claim_C9_validation (pathDoesExist : String → Bool) (o : Opts) :
    ((get_opts pathDoesExist o).2 = .ok o ↔
      (pathDoesExist o.in_path = true ∧ 0 < o.batch_size ∧
        (o.mask = 0 ∨ o.mask = 1) ∧ o.blend ≤ 1)) ∧
    (¬ (pathDoesExist o.in_path = true ∧ 0 < o.batch_size ∧
        (o.mask = 0 ∨ o.mask = 1) ∧ o.blend ≤ 1) →
      ∃ e, (get_opts pathDoesExist o).2 = .error e) ∧
    (∀ a ∈ (get_opts pathDoesExist o).1, a = Action.makeDir) := by
  unfold get_opts
  by_cases h1 : pathDoesExist o.in_path = true <;>
    by_cases h2 : (0 : ℤ) < o.batch_size <;>
    by_cases h3 : o.mask = 1 ∨ o.mask = 0 <;>
    by_cases h4 : o.blend ≤ 1 <;>
    simp [h1, h2, h3, h4] <;>
    tauto

/-- C9 witness: the theorem at a concrete environment and a concrete
valid configuration. -/
theorem claim_C9_validation_witness :
    ((get_opts (fun _ => true) okOpts).2 = .ok okOpts ↔
      ((fun (_ : String) => true) okOpts.in_path = true ∧ 0 < okOpts.batch_size ∧
        (okOpts.mask = 0 ∨ okOpts.mask = 1) ∧ okOpts.blend ≤ 1)) ∧
    (¬ ((fun (_ : String) => true) okOpts.in_path = true ∧ 0 < okOpts.batch_size ∧
        (okOpts.mask = 0 ∨ okOpts.mask = 1) ∧ okOpts.blend ≤ 1) →
      ∃ e, (get_opts (fun _ => true) okOpts).2 = .error e) ∧
    (∀ a ∈ (get_opts (fun _ => true) okOpts).1, a = Action.makeDir) :=
  claim_C9_validation (fun _ => true) okOpts

theorem evalF_succ (o : Oracle) (fuel : Nat) (ins outs : List String) (m d : String)
    (B mask : Nat) (blend : ℚ) :
    evalF o (fuel + 1) ins outs m d B mask blend =
      (let B' := min outs.length B
       let r1 := transferCore (evalF o fuel) o d ins outs m d B' mask blend
       match r1.err with
       | some (.tf .resourceExhausted) =>
         let r2 := transferCore (evalF o fuel) o "/cpu:0" ins outs m d B' mask blend
         ⟨r1.writes ++ r2.writes,
          (d, B') :: r1.sessions ++ ("/cpu:0", B') :: r2.sessions, r2.err⟩
       | _ => ⟨r1.writes, (d, B') :: r1.sessions, r1.err⟩) := rfl

/-- C6: per `eval` call, the work is attempted on the configured device
exactly once; iff that primary attempt ends in resource exhaustion, the
identical request (same inputs, outputs, model, clamped batch size,
mask, blend) is re-run from scratch in a fresh session pinned to
`/cpu:0`, keeping the primary's partial writes in place; any other
primary error, and whatever error the fallback itself ends in —
including a second resource exhaustion — propagates with no further
session constructed. -/
theorem claim_C6_fallback (o : Oracle) (fuel : Nat) (ins outs : List String) (m d : String)
    (B mask : Nat) (blend : ℚ) :
    ((transferF o fuel d ins outs m d (min outs.length B) mask blend).err ≠
        some (RunErr.tf TFErr.resourceExhausted) →
      evalF o (fuel + 1) ins outs m d B mask blend =
        ⟨(transferF o fuel d ins outs m d (min outs.length B) mask blend).writes,
         (d, min outs.length B) ::
           (transferF o fuel d ins outs m d (min outs.length B) mask blend).sessions,
         (transferF o fuel d ins outs m d (min outs.length B) mask blend).err⟩) ∧
    ((transferF o fuel d ins outs m d (min outs.length B) mask blend).err =
        some (RunErr.tf TFErr.resourceExhausted) →
      evalF o (fuel + 1) ins outs m d B mask blend =
        ⟨(transferF o fuel d ins outs m d (min outs.length B) mask blend).writes ++
           (transferF o fuel "/cpu:0" ins outs m d (min outs.length B) mask blend).writes,
         (d, min outs.length B) ::
             (transferF o fuel d ins outs m d (min outs.length B) mask blend).sessions ++
           ("/cpu:0", min outs.length B) ::
             (transferF o fuel "/cpu:0" ins outs m d (min outs.length B) mask blend).sessions,
         (transferF o fuel "/cpu:0" ins outs m d (min outs.length B) mask blend).err⟩) := by
  constructor
  · intro h
    rw [evalF_succ]
    simp only [transferF] at h ⊢
  · intro h
    rw [evalF_succ]
    simp only [transferF] at h ⊢
    simp [h]

/-- C6 witness: with a network that exhausts `/gpu:0` memory, the
fallback case of the theorem at a concrete one-image request. -/
theorem claim_C6_fallback_witness :
    evalF reOracle 1 ["a"] ["o"] "m" "/gpu:0" 1 0 0 =
      ⟨(transferF reOracle 0 "/gpu:0" ["a"] ["o"] "m" "/gpu:0" 1 0 0).writes ++
         (transferF reOracle 0 "/cpu:0" ["a"] ["o"] "m" "/gpu:0" 1 0 0).writes,
       ("/gpu:0", 1) :: (transferF reOracle 0 "/gpu:0" ["a"] ["o"] "m" "/gpu:0" 1 0 0).sessions ++
         ("/cpu:0", 1) :: (transferF reOracle 0 "/cpu:0" ["a"] ["o"] "m" "/gpu:0" 1 0 0).sessions,
       (transferF reOracle 0 "/cpu:0" ["a"] ["o"] "m" "/gpu:0" 1 0 0).err⟩ :=
  (claim_C6_fallback reOracle 0 ["a"] ["o"] "m" "/gpu:0" 1 0 0).2 (by
    norm_num +decide [transferF, transferCore, batchLoopGo, fillRun, outLoop, postProcess,
      maskStep, blendStep, reOracle, imgShape, imgMap, imgMul, imgScale, imgMax, clipCast,
      clipCastImg, cropTo, zeroImg, evalF, List.replicate, List.headD, Except.instMonad,
      Except.bind, Except.map, Except.pure])

theorem transferCore_congr (f₁ f₂ : List String → List String → String → String → Nat → Nat → ℚ → Res)
    (o : Oracle) (sessDev : String) (data_in paths_out : List String) (m d : String)
    (B mask : Nat) (blend : ℚ)
    (h : f₁ (data_in.drop (paths_out.length / B * B)) (paths_out.drop (paths_out.length / B * B))
           m d B mask blend =
         f₂ (data_in.drop (paths_out.length / B * B)) (paths_out.drop (paths_out.length / B * B))
           m d B mask blend) :
    transferCore f₁ o sessDev data_in paths_out m d B mask blend =
      transferCore f₂ o sessDev data_in paths_out m d B mask blend := by
  cases data_in with
  | nil => rfl
  | cons d0 tl =>
    simp only [transferCore]
    by_cases hb : B = 0
    · simp [hb]
    · simp only [hb, if_false]
      rcases hbl : batchLoopGo o sessDev B mask blend (imgShape (o.readImg d0)) (d0 :: tl)
          paths_out 0 (paths_out.length / B) with ⟨ws, e⟩
      cases e with
      | some e => rfl
      | none =>
        dsimp only
        split
        · rw [h]
        · rfl

theorem transferCore_indep (f₁ f₂ : List String → List String → String → String → Nat → Nat → ℚ → Res)
    (o : Oracle) (sessDev : String) (data_in paths_out : List String) (m d : String)
    (B mask : Nat) (blend : ℚ)
    (h : B = 0 ∨ data_in.length ≤ paths_out.length / B * B) :
    transferCore f₁ o sessDev data_in paths_out m d B mask blend =
      transferCore f₂ o sessDev data_in paths_out m d B mask blend := by
  cases data_in with
  | nil => rfl
  | cons d0 tl =>
    simp only [transferCore]
    rcases h with hb | hrem
    · simp [hb]
    · by_cases hb : B = 0
      · simp [hb]
      · simp only [hb, if_false]
        rcases hbl : batchLoopGo o sessDev B mask blend (imgShape (o.readImg d0)) (d0 :: tl)
            paths_out 0 (paths_out.length / B) with ⟨ws, e⟩
        cases e with
        | some e => rfl
        | none =>
          have hempty : ((d0 :: tl).drop (paths_out.length / B * B)).length = 0 := by
            simp only [List.length_drop]
            omega
          simp [hempty]

theorem evalF_fuel_eq_of_le (o : Oracle) (f g : Nat) (ins outs : List String) (m d : String)
    (B mask : Nat) (blend : ℚ)
    (hlen : ins.length = outs.length) (hle : outs.length ≤ B) :
    evalF o (f + 1) ins outs m d B mask blend = evalF o (g + 1) ins outs m d B mask blend := by
  have hL : min outs.length B = outs.length := Nat.min_eq_left hle
  have hno : outs.length = 0 ∨ ins.length ≤ outs.length / outs.length * outs.length := by
    rcases Nat.eq_zero_or_pos outs.length with h0 | hpos
    · exact Or.inl h0
    · rw [Nat.div_self hpos, one_mul]
      exact Or.inr (le_of_eq hlen)
  have e1 := transferCore_indep (evalF o f) (evalF o g) o d ins outs m d outs.length mask blend hno
  have e2 := transferCore_indep (evalF o f) (evalF o g) o "/cpu:0" ins outs m d outs.length mask
    blend hno
  rw [evalF_succ, evalF_succ, hL]
  simp only [e1, e2]

theorem evalF_ge_two_eq (o : Oracle) (f : Nat) (ins outs : List String) (m d : String)
    (B mask : Nat) (blend : ℚ) (hlen : ins.length = outs.length) :
    evalF o (f + 1 + 1) ins outs m d B mask blend = evalF o (1 + 1) ins outs m d B mask blend := by
  rcases Nat.eq_zero_or_pos (min outs.length B) with b0 | bpos
  · have e1 := transferCore_indep (evalF o (f + 1)) (evalF o 1) o d ins outs m d
      (min outs.length B) mask blend (Or.inl b0)
    have e2 := transferCore_indep (evalF o (f + 1)) (evalF o 1) o "/cpu:0" ins outs m d
      (min outs.length B) mask blend (Or.inl b0)
    rw [evalF_succ, evalF_succ]
    simp only [e1, e2]
  · have hlen' : (ins.drop (outs.length / min outs.length B * min outs.length B)).length =
        (outs.drop (outs.length / min outs.length B * min outs.length B)).length := by
      simp only [List.length_drop, hlen]
    have hle' : (outs.drop (outs.length / min outs.length B * min outs.length B)).length ≤
        min outs.length B := by
      simp only [List.length_drop]
      have h1 : outs.length % min outs.length B + outs.length / min outs.length B *
          min outs.length B = outs.length := Nat.mod_add_div' _ _
      have h2 : outs.length % min outs.length B < min outs.length B :=
        Nat.mod_lt _ bpos
      omega
    have hrec : evalF o (f + 1)
          (ins.drop (outs.length / min outs.length B * min outs.length B))
          (outs.drop (outs.length / min outs.length B * min outs.length B))
          m d (min outs.length B) mask blend =
        evalF o 1
          (ins.drop (outs.length / min outs.length B * min outs.length B))
          (outs.drop (outs.length / min outs.length B * min outs.length B))
          m d (min outs.length B) mask blend :=
      evalF_fuel_eq_of_le o f 0 _ _ m d (min outs.length B) mask blend hlen' hle'
    have e1 := transferCore_congr (evalF o (f + 1)) (evalF o 1) o d ins outs m d
      (min outs.length B) mask blend hrec
    have e2 := transferCore_congr (evalF o (f + 1)) (evalF o 1) o "/cpu:0" ins outs m d
      (min outs.length B) mask blend hrec
    rw [evalF_succ, evalF_succ]
    simp only [e1, e2]

theorem maskStep_err (x : List Img) (i j : Nat) (img : Img) (e : RunErr)
    (h : maskStep x i j img = .error e) : e = .indexErr := by
  unfold maskStep at h
  rcases hi : x[i]? with _ | xi <;> rcases hj : x[j]? with _ | xj <;>
    rw [hi, hj] at h <;> simp_all

theorem blendStep_err (blend : ℚ) (x : List Img) (i : Nat) (img : Img) (e : RunErr)
    (h : blendStep blend x i img = .error e) : e = .indexErr := by
  unfold blendStep at h
  rcases hi : x[i]? with _ | xi <;> rw [hi] at h <;> simp_all

theorem postProcess_err (mask : Nat) (blend : ℚ) (x : List Img) (i j : Nat) (pred : Img)
    (e : RunErr) (h : postProcess mask blend x i j pred = .error e) : e = .indexErr := by
  unfold postProcess at h
  rcases hm : (if mask = 1 then maskStep x i j (clipCastImg pred)
      else Except.ok (clipCastImg pred)) with e1 | a
  · rw [hm] at h
    simp only [Except.error.injEq] at h
    subst h
    split at hm
    · exact maskStep_err _ _ _ _ _ hm
    · exact absurd hm (by simp)
  · rw [hm] at h
    dsimp only at h
    split at h
    · exact blendStep_err _ _ _ _ _ h
    · exact absurd h (by simp)

theorem outLoop_err_ne_fuelOut (mask : Nat) (blend : ℚ) (x preds : List Img) (i : Nat)
    (ps : List String) : ∀ j : Nat,
    (outLoop mask blend x preds i j ps).2 ≠ some RunErr.fuelOut := by
  induction ps with
  | nil => intro j; simp [outLoop]
  | cons p rest ih =>
    intro j
    simp only [outLoop]
    rcases hj : preds[j]? with _ | pr <;> simp only [hj]
    · simp
    · rcases hpp : postProcess mask blend x i j pr with e | img <;> simp only [hpp]
      · have := postProcess_err _ _ _ _ _ _ _ hpp
        simp [this]
      · simpa using ih (j + 1)

theorem batchLoopGo_err_ne_fuelOut (o : Oracle) (sessDev : String) (B mask : Nat) (blend : ℚ)
    (shape : Shape) (data_in paths_out : List String) (k : Nat) : ∀ i : Nat,
    (batchLoopGo o sessDev B mask blend shape data_in paths_out i k).2 ≠
      some RunErr.fuelOut := by
  induction k with
  | zero => intro i; simp [batchLoopGo]
  | succ n ih =>
    intro i
    simp only [batchLoopGo]
    rcases hf : fillRun o sessDev (List.replicate B (zeroImg shape)) 0
        ((data_in.drop (i * B)).take B) with e | ⟨x, _ | preds⟩ <;> simp only [hf]
    · simp
    · simp
    · rcases ho : outLoop mask blend x preds i 0 ((paths_out.drop (i * B)).take B)
        with ⟨ws, _ | e⟩ <;> simp only [ho]
      · simpa using ih (i + 1)
      · have := outLoop_err_ne_fuelOut mask blend x preds i
          ((paths_out.drop (i * B)).take B) 0
        rw [ho] at this
        simpa using this

theorem transferCore_err_norec
    (f : List String → List String → String → String → Nat → Nat → ℚ → Res)
    (o : Oracle) (sessDev : String) (data_in paths_out : List String) (m d : String)
    (B mask : Nat) (blend : ℚ)
    (h : B = 0 ∨ data_in.length ≤ paths_out.length / B * B) :
    (transferCore f o sessDev data_in paths_out m d B mask blend).err ≠
      some RunErr.fuelOut := by
  cases data_in with
  | nil => simp [transferCore]
  | cons d0 tl =>
    simp only [transferCore]
    rcases h with hb | hrem
    · simp [hb]
    · by_cases hb : B = 0
      · simp [hb]
      · simp only [hb, if_false]
        rcases hbl : batchLoopGo o sessDev B mask blend (imgShape (o.readImg d0)) (d0 :: tl)
            paths_out 0 (paths_out.length / B) with ⟨ws, _ | e⟩ <;> simp only [hbl]
        · have hempty : ((d0 :: tl).drop (paths_out.length / B * B)).length = 0 := by
            simp only [List.length_drop]
            omega
          simp [hempty]
        · have := batchLoopGo_err_ne_fuelOut o sessDev B mask blend
            (imgShape (o.readImg d0)) (d0 :: tl) paths_out (paths_out.length / B) 0
          rw [hbl] at this
          simpa using this

theorem transferCore_err_of
    (f : List String → List String → String → String → Nat → Nat → ℚ → Res)
    (o : Oracle) (sessDev : String) (data_in paths_out : List String) (m d : String)
    (B mask : Nat) (blend : ℚ)
    (h : (f (data_in.drop (paths_out.length / B * B))
        (paths_out.drop (paths_out.length / B * B)) m d B mask blend).err ≠
      some RunErr.fuelOut) :
    (transferCore f o sessDev data_in paths_out m d B mask blend).err ≠
      some RunErr.fuelOut := by
  cases data_in with
  | nil => simp [transferCore]
  | cons d0 tl =>
    simp only [transferCore]
    by_cases hb : B = 0
    · simp [hb]
    · simp only [hb, if_false]
      rcases hbl : batchLoopGo o sessDev B mask blend (imgShape (o.readImg d0)) (d0 :: tl)
          paths_out 0 (paths_out.length / B) with ⟨ws, _ | e⟩ <;> simp only [hbl]
      · split
        · simpa using h
        · simp
      · have := batchLoopGo_err_ne_fuelOut o sessDev B mask blend
          (imgShape (o.readImg d0)) (d0 :: tl) paths_out (paths_out.length / B) 0
        rw [hbl] at this
        simpa using this

theorem evalF_err_succ (o : Oracle) (f : Nat) (ins outs : List String) (m d : String)
    (B mask : Nat) (blend : ℚ)
    (h : ∀ sessDev, (transferCore (evalF o f) o sessDev ins outs m d (min outs.length B)
        mask blend).err ≠ some RunErr.fuelOut) :
    (evalF o (f + 1) ins outs m d B mask blend).err ≠ some RunErr.fuelOut := by
  rw [evalF_succ]
  dsimp only
  split
  · exact h "/cpu:0"
  · exact h d

theorem evalF_one_err (o : Oracle) (ins outs : List String) (m d : String)
    (B mask : Nat) (blend : ℚ) (hlen : ins.length = outs.length) (hle : outs.length ≤ B) :
    (evalF o (0 + 1) ins outs m d B mask blend).err ≠ some RunErr.fuelOut := by
  apply evalF_err_succ
  intro sessDev
  rw [Nat.min_eq_left hle]
  apply transferCore_err_norec
  rcases Nat.eq_zero_or_pos outs.length with h0 | hpos
  · exact Or.inl h0
  · right
    rw [Nat.div_self hpos, one_mul]
    exact le_of_eq hlen

theorem evalF_two_err (o : Oracle) (ins outs : List String) (m d : String)
    (B mask : Nat) (blend : ℚ) (hlen : ins.length = outs.length) :
    (evalF o (1 + 1) ins outs m d B mask blend).err ≠ some RunErr.fuelOut := by
  apply evalF_err_succ
  intro sessDev
  rcases Nat.eq_zero_or_pos (min outs.length B) with b0 | bpos
  · exact transferCore_err_norec _ o sessDev ins outs m d _ mask blend (Or.inl b0)
  · apply transferCore_err_of
    apply evalF_one_err
    · simp [hlen]
    · simp only [List.length_drop]
      have h1 : outs.length % min outs.length B + outs.length / min outs.length B *
          min outs.length B = outs.length := Nat.mod_add_div' _ _
      have h2 : outs.length % min outs.length B < min outs.length B := Nat.mod_lt _ bpos
      omega

/-- C5: the transfer → eval → transfer remainder recursion terminates
for every non-empty input list and every batch size ≥ 1: because `eval`
re-clamps the batch size to `min(len(paths_out), batch_size)`, the one
recursive call already runs its leftovers as a single full micro-batch,
so a recursion budget of 2 `eval` entries is never exceeded — the run's
outcome is identical for every fuel ≥ 2 and the budget exhaustion error
never occurs. -/
theorem claim_C5_termination (o : Oracle) (ins outs : List String) (m d : String)
    (B mask : Nat) (blend : ℚ) (fuel : Nat)
    (_hne : ins ≠ []) (_hB : 1 ≤ B) (hlen : ins.length = outs.length) (hfuel : 2 ≤ fuel) :
    evalF o fuel ins outs m d B mask blend = evalF o 2 ins outs m d B mask blend ∧
    (evalF o 2 ins outs m d B mask blend).err ≠ some RunErr.fuelOut := by
  obtain ⟨g, rfl⟩ : ∃ g, fuel = g + 1 + 1 := ⟨fuel - 2, by omega⟩
  exact ⟨evalF_ge_two_eq o g ins outs m d B mask blend hlen,
         evalF_two_err o ins outs m d B mask blend hlen⟩

/-- C5 witness: the theorem at a concrete 3-image, batch-size-2 request
(one full batch of 2, one leftover drained by the recursion). -/
theorem claim_C5_termination_witness :
    evalF idNetOracle 3 ["a", "b", "c"] ["x", "y", "z"] "m" "/gpu:0" 2 0 0 =
      evalF idNetOracle 2 ["a", "b", "c"] ["x", "y", "z"] "m" "/gpu:0" 2 0 0 ∧
    (evalF idNetOracle 2 ["a", "b", "c"] ["x", "y", "z"] "m" "/gpu:0" 2 0 0).err ≠
      some RunErr.fuelOut :=
  claim_C5_termination idNetOracle ["a", "b", "c"] ["x", "y", "z"] "m" "/gpu:0" 2 0 0 3
    (by simp) (by omega) rfl (by omega)

theorem fillRun_congr (o₁ o₂ : Oracle) (dev : String) (hnet : o₁.net = o₂.net) :
    ∀ (ps : List String) (x : List Img) (j : Nat),
      (∀ p ∈ ps, o₁.readImg p = o₂.readImg p) →
      fillRun o₁ dev x j ps = fillRun o₂ dev x j ps := by
  intro ps
  induction ps with
  | nil => intro x j _; rfl
  | cons p rest ih =>
    intro x j hread
    have hp : o₁.readImg p = o₂.readImg p := hread p (List.mem_cons_self p rest)
    have hrest : ∀ q ∈ rest, o₁.readImg q = o₂.readImg q :=
      fun q hq => hread q (List.mem_cons_of_mem p hq)
    simp only [fillRun, hp, hnet, ih (x.set j (o₂.readImg p)) (j + 1) hrest]

theorem batchLoopGo_congr (o₁ o₂ : Oracle) (dev : String) (B mask : Nat) (blend : ℚ)
    (shape : Shape) (data_in paths_out : List String) (hnet : o₁.net = o₂.net)
    (hread : ∀ p ∈ data_in, o₁.readImg p = o₂.readImg p) :
    ∀ k i, batchLoopGo o₁ dev B mask blend shape data_in paths_out i k =
      batchLoopGo o₂ dev B mask blend shape data_in paths_out i k := by
  intro k
  induction k with
  | zero => intro i; rfl
  | succ n ih =>
    intro i
    have hsub : ∀ p ∈ (data_in.drop (i * B)).take B, o₁.readImg p = o₂.readImg p :=
      fun p hp => hread p (List.mem_of_mem_drop (List.mem_of_mem_take hp))
    simp only [batchLoopGo,
      fillRun_congr o₁ o₂ dev hnet ((data_in.drop (i * B)).take B) _ _ hsub, ih (i + 1)]

theorem transferCore_oracle_congr (o₁ o₂ : Oracle)
    (f₁ f₂ : List String → List String → String → String → Nat → Nat → ℚ → Res)
    (sessDev : String) (data_in paths_out : List String) (m d : String)
    (B mask : Nat) (blend : ℚ) (hnet : o₁.net = o₂.net)
    (hread : ∀ p ∈ data_in, o₁.readImg p = o₂.readImg p)
    (hf : f₁ (data_in.drop (paths_out.length / B * B))
            (paths_out.drop (paths_out.length / B * B)) m d B mask blend =
          f₂ (data_in.drop (paths_out.length / B * B))
            (paths_out.drop (paths_out.length / B * B)) m d B mask blend) :
    transferCore f₁ o₁ sessDev data_in paths_out m d B mask blend =
      transferCore f₂ o₂ sessDev data_in paths_out m d B mask blend := by
  cases data_in with
  | nil => rfl
  | cons d0 tl =>
    have hd0 : o₁.readImg d0 = o₂.readImg d0 := hread d0 (List.mem_cons_self d0 tl)
    simp only [transferCore, hd0]
    by_cases hb : B = 0
    · simp [hb]
    · simp only [hb, if_false]
      rw [batchLoopGo_congr o₁ o₂ sessDev B mask blend (imgShape (o₂.readImg d0)) (d0 :: tl)
        paths_out hnet hread (paths_out.length / B) 0]
      rcases hbl : batchLoopGo o₂ sessDev B mask blend (imgShape (o₂.readImg d0)) (d0 :: tl)
          paths_out 0 (paths_out.length / B) with ⟨ws, _ | e⟩ <;> simp only [hbl]
      rw [hf]

theorem evalF_oracle_congr (o₁ o₂ : Oracle) (hnet : o₁.net = o₂.net) :
    ∀ (fuel : Nat) (ins outs : List String) (m d : String) (B mask : Nat) (blend : ℚ),
      (∀ p ∈ ins, o₁.readImg p = o₂.readImg p) →
      evalF o₁ fuel ins outs m d B mask blend = evalF o₂ fuel ins outs m d B mask blend := by
  intro fuel
  induction fuel with
  | zero => intros; rfl
  | succ f ih =>
    intro ins outs m d B mask blend hread
    have hsub : ∀ p ∈ ins.drop (outs.length / min outs.length B * min outs.length B),
        o₁.readImg p = o₂.readImg p :=
      fun p hp => hread p (List.mem_of_mem_drop hp)
    have h1 := transferCore_oracle_congr o₁ o₂ (evalF o₁ f) (evalF o₂ f) d ins outs m d
      (min outs.length B) mask blend hnet hread (ih _ _ m d (min outs.length B) mask blend hsub)
    have h2 := transferCore_oracle_congr o₁ o₂ (evalF o₁ f) (evalF o₂ f) "/cpu:0" ins outs m d
      (min outs.length B) mask blend hnet hread (ih _ _ m d (min outs.length B) mask blend hsub)
    rw [evalF_succ, evalF_succ]
    simp only [h1, h2]

theorem findGroup_addToGroups_same (k : Shape) (pin pout : String) (gs : Groups) :
    findGroup k (addToGroups k pin pout gs) =
      some (match findGroup k gs with
            | none => ([pin], [pout])
            | some (a, b) => (a ++ [pin], b ++ [pout])) := by
  induction gs with
  | nil => simp [addToGroups, findGroup]
  | cons g rest ih =>
    by_cases hg : g.1 = k
    · simp [addToGroups, findGroup, hg]
    · simp [addToGroups, findGroup, hg, ih]

theorem findGroup_addToGroups_other (k k' : Shape) (pin pout : String) (gs : Groups)
    (hkk : k' ≠ k) :
    findGroup k' (addToGroups k pin pout gs) = findGroup k' gs := by
  induction gs with
  | nil => simp [addToGroups, findGroup, Ne.symm hkk]
  | cons g rest ih =>
    by_cases hg : g.1 = k
    · have h2 : ¬ k = k' := fun h => hkk h.symm
      simp [addToGroups, findGroup, hg, h2]
    · by_cases hg' : g.1 = k'
      · simp [addToGroups, findGroup, hg, hg', hkk]
      · simp [addToGroups, findGroup, hg, hg', ih]

theorem mem_keys_addToGroups (k k' : Shape) (pin pout : String) (gs : Groups) :
    k' ∈ (addToGroups k pin pout gs).map Prod.fst ↔ k' = k ∨ k' ∈ gs.map Prod.fst := by
  induction gs with
  | nil => simp [addToGroups]
  | cons g rest ih =>
    by_cases hg : g.1 = k
    · subst hg
      simp [addToGroups]
    · simp [addToGroups, hg, ih]
      tauto

theorem keys_nodup_addToGroups (k : Shape) (pin pout : String) (gs : Groups)
    (h : (gs.map Prod.fst).Nodup) :
    ((addToGroups k pin pout gs).map Prod.fst).Nodup := by
  induction gs with
  | nil => simp [addToGroups]
  | cons g rest ih =>
    by_cases hg : g.1 = k
    · subst hg
      simpa [addToGroups] using h
    · simp only [List.map_cons, List.nodup_cons] at h
      simp only [addToGroups, hg, if_false, List.map_cons, List.nodup_cons]
      refine ⟨?_, ih h.2⟩
      intro hmem
      rw [mem_keys_addToGroups] at hmem
      rcases hmem with rfl | hmem
      · exact hg rfl
      · exact h.1 hmem

theorem keys_nodup_groupsGo (shapeOf : String → Shape) :
    ∀ (l : List (String × String)) (gs : Groups), (gs.map Prod.fst).Nodup →
      ((groupsGo shapeOf gs l).map Prod.fst).Nodup := by
  intro l
  induction l with
  | nil => intro gs h; exact h
  | cons pr rest ih =>
    intro gs h
    exact ih _ (keys_nodup_addToGroups _ _ _ _ h)

/-- How one group of the final grouping extends a group of the
accumulator: the selected pairs are appended, in order. -/
def combineGroup : Option (List String × List String) → List (String × String) →
    Option (List String × List String)
  | none, [] => none
  | none, s => some (s.map Prod.fst, s.map Prod.snd)
  | some (a, b), s => some (a ++ s.map Prod.fst, b ++ s.map Prod.snd)

theorem findGroup_groupsGo (shapeOf : String → Shape) (k : Shape) :
    ∀ (l : List (String × String)) (gs : Groups),
      findGroup k (groupsGo shapeOf gs l) =
        combineGroup (findGroup k gs) (l.filter fun pr => shapeOf pr.1 = k) := by
  intro l
  induction l with
  | nil =>
    intro gs
    rcases h : findGroup k gs with _ | ⟨a, b⟩ <;> simp [groupsGo, combineGroup, h]
  | cons pr rest ih =>
    intro gs
    simp only [groupsGo]
    rw [ih (addToGroups (shapeOf pr.1) pr.1 pr.2 gs)]
    by_cases hk : shapeOf pr.1 = k
    · rw [hk, findGroup_addToGroups_same k pr.1 pr.2 gs]
      rcases h : findGroup k gs with _ | ⟨a, b⟩ <;>
        simp [List.filter_cons, hk, combineGroup, h]
    · rw [findGroup_addToGroups_other (shapeOf pr.1) k pr.1 pr.2 gs (Ne.symm hk)]
      simp [List.filter_cons, hk]

theorem mem_groups_iff (k : Shape) (ab : List String × List String) :
    ∀ gs : Groups, (gs.map Prod.fst).Nodup →
      ((k, ab) ∈ gs ↔ findGroup k gs = some ab) := by
  intro gs
  induction gs with
  | nil => intro _; simp [findGroup]
  | cons g rest ih =>
    rcases g with ⟨gk, gv⟩
    intro hnd
    simp only [List.map_cons, List.nodup_cons] at hnd
    by_cases hg : gk = k
    · subst hg
      have hfind : findGroup gk ((gk, gv) :: rest) = some gv := by simp [findGroup]
      rw [hfind]
      simp only [List.mem_cons, Option.some.injEq]
      constructor
      · rintro (h | hmem)
        · exact (congrArg Prod.snd h).symm
        · exact absurd (List.mem_map_of_mem Prod.fst hmem) hnd.1
      · rintro rfl
        exact Or.inl rfl
    · have hcond : ¬ ((gk, gv) : Shape × List String × List String).1 = k := by simpa using hg
      simp only [findGroup, if_neg hcond, List.mem_cons]
      rw [← ih hnd.2]
      constructor
      · rintro (h | hmem)
        · exact absurd (congrArg Prod.fst h).symm hg
        · exact hmem
      · exact Or.inr

theorem length_filter_not_split {α : Type} (p : α → Bool) (l : List α) :
    (l.filter p).length + (l.filter fun a => ! p a).length = l.length := by
  induction l with
  | nil => simp
  | cons a t ih =>
    by_cases h : p a <;> simp [List.filter_cons, h] <;> omega

theorem filter_filter_ne {α κ : Type} [DecidableEq κ] (f : α → κ) (k k' : κ) (hkk : k' ≠ k)
    (l : List α) :
    ((l.filter fun x => ! decide (f x = k)).filter fun x => f x = k') =
      l.filter fun x => f x = k' := by
  rw [List.filter_filter]
  apply List.filter_congr
  intro a _
  by_cases h : f a = k'
  · have h2 : f a ≠ k := h ▸ hkk
    simp [h, h2, hkk]
  · simp [h]

theorem sum_length_filter_keys {α κ : Type} [DecidableEq κ] (f : α → κ) :
    ∀ ks : List κ, ks.Nodup → ∀ l : List α, (∀ x ∈ l, f x ∈ ks) →
      (ks.map fun k => (l.filter fun x => f x = k).length).sum = l.length := by
  intro ks
  induction ks with
  | nil =>
    intro _ l hl
    cases l with
    | nil => simp
    | cons a t => exact absurd (hl a (List.mem_cons_self a t)) (List.not_mem_nil _)
  | cons k rest ih =>
    intro hnd l hl
    rw [List.nodup_cons] at hnd
    simp only [List.map_cons, List.sum_cons]
    have hsub : ∀ x ∈ l.filter fun x => ! decide (f x = k), f x ∈ rest := by
      intro x hx
      have hx1 := List.mem_of_mem_filter hx
      have hx2 := List.of_mem_filter hx
      simp only [Bool.not_eq_true', decide_eq_false_iff_not] at hx2
      rcases List.mem_cons.mp (hl x hx1) with h | h
      · exact absurd h hx2
      · exact h
    have hcomm : (rest.map fun k' =>
        ((l.filter fun x => ! decide (f x = k)).filter fun x => f x = k').length) =
        rest.map fun k' => (l.filter fun x => f x = k').length := by
      apply List.map_congr_left
      intro k' hk'
      have hkk : k' ≠ k := fun h => hnd.1 (h ▸ hk')
      rw [filter_filter_ne f k k' hkk l]
    have hih := ih hnd.2 (l.filter fun x => ! decide (f x = k)) hsub
    rw [hcomm] at hih
    rw [hih]
    exact length_filter_not_split _ l

theorem exists_pair_of_mem (p : String) :
    ∀ ins outs : List String, ins.length = outs.length → p ∈ ins →
      ∃ q, (p, q) ∈ List.zip ins outs := by
  intro ins
  induction ins with
  | nil => intro outs _ h; simp at h
  | cons a t ih =>
    intro outs hlen hp
    cases outs with
    | nil => simp at hlen
    | cons b s =>
      rcases List.mem_cons.mp hp with rfl | hp'
      · exact ⟨b, List.mem_cons_self _ _⟩
      · obtain ⟨q, hq⟩ := ih s (by simpa using hlen) hp'
        exact ⟨q, List.mem_cons_of_mem _ hq⟩

theorem map_fst_filter_zip (shapeOf : String → Shape) (k : Shape) :
    ∀ ins outs : List String, ins.length = outs.length →
      ((List.zip ins outs).filter fun pr => shapeOf pr.1 = k).map Prod.fst =
        ins.filter fun p => shapeOf p = k := by
  intro ins
  induction ins with
  | nil => intro outs _; simp
  | cons a t ih =>
    intro outs hlen
    cases outs with
    | nil => simp at hlen
    | cons b s =>
      simp only [List.zip_cons_cons, List.filter_cons]
      by_cases h : shapeOf a = k <;> simp [h, ih s (by simpa using hlen)]

theorem findGroup_isSome_mem (k : Shape) (ab : List String × List String) :
    ∀ gs : Groups, findGroup k gs = some ab → k ∈ gs.map Prod.fst := by
  intro gs
  induction gs with
  | nil => intro h; simp [findGroup] at h
  | cons g rest ih =>
    intro h
    by_cases hg : g.1 = k
    · simp [hg]
    · rw [findGroup, if_neg hg] at h
      simp [ih h]

/-- C7: `eval_mul_dims`'s grouping pass over aligned path lists
partitions the pairs exactly, keyed by the exact decoded (H, W, C) shape
of each input image: group keys are pairwise distinct; within each group
the inputs are precisely the inputs of that shape in original relative
order, the input and output sequences have equal length and are
positionally aligned with the original pairing; the group sizes add up
to the total number of inputs; and every input appears in the group of
its own shape. -/
theorem claim_C7_grouping (o : Oracle) (ins outs : List String)
    (hlen : ins.length = outs.length) :
    ((shapeGroups (fun p => imgShape (o.readImg p)) ins outs).map Prod.fst).Nodup ∧
    (∀ k a b, (k, (a, b)) ∈ shapeGroups (fun p => imgShape (o.readImg p)) ins outs →
      a = ins.filter (fun p => imgShape (o.readImg p) = k) ∧
      a.length = b.length ∧
      List.zip a b =
        (List.zip ins outs).filter fun pr => imgShape (o.readImg pr.1) = k) ∧
    ((shapeGroups (fun p => imgShape (o.readImg p)) ins outs).map
      fun g => g.2.1.length).sum = ins.length ∧
    (∀ p ∈ ins, ∃ a b,
      (imgShape (o.readImg p), (a, b)) ∈
        shapeGroups (fun p => imgShape (o.readImg p)) ins outs ∧ p ∈ a) := by
  have hnodup : ((shapeGroups (fun p => imgShape (o.readImg p)) ins outs).map Prod.fst).Nodup :=
    keys_nodup_groupsGo _ (List.zip ins outs) [] (by simp)
  have hchar : ∀ k a b,
      (k, (a, b)) ∈ shapeGroups (fun p => imgShape (o.readImg p)) ins outs →
      ∃ s, (List.zip ins outs).filter (fun pr => imgShape (o.readImg pr.1) = k) = s ∧
        s ≠ [] ∧ a = s.map Prod.fst ∧ b = s.map Prod.snd := by
    intro k a b hmem
    have hfind := (mem_groups_iff k (a, b) _ hnodup).mp hmem
    rw [show shapeGroups (fun p => imgShape (o.readImg p)) ins outs =
          groupsGo (fun p => imgShape (o.readImg p)) [] (List.zip ins outs) from rfl,
        findGroup_groupsGo] at hfind
    rcases hs : (List.zip ins outs).filter
        (fun pr => imgShape (o.readImg pr.1) = k) with _ | ⟨q, s'⟩
    · rw [hs] at hfind
      simp [combineGroup, findGroup] at hfind
    · rw [hs] at hfind
      simp only [findGroup, combineGroup, Option.some.injEq] at hfind
      exact ⟨q :: s', hs, by simp,
        (congrArg Prod.fst hfind).symm, (congrArg Prod.snd hfind).symm⟩
  refine ⟨hnodup, ?_, ?_, ?_⟩
  · intro k a b hmem
    obtain ⟨s, hs, _, ha, hb⟩ := hchar k a b hmem
    refine ⟨?_, ?_, ?_⟩
    · rw [ha, ← hs, map_fst_filter_zip (fun p => imgShape (o.readImg p)) k ins outs hlen]
    · rw [ha, hb]
      simp
    · rw [ha, hb, (List.zip_of_prod rfl rfl).symm, hs]
  · have hcg : ∀ g ∈ shapeGroups (fun p => imgShape (o.readImg p)) ins outs,
        g.2.1.length =
          ((List.zip ins outs).filter fun pr => imgShape (o.readImg pr.1) = g.1).length := by
      intro g hg
      obtain ⟨s, hs, _, ha, _⟩ := hchar g.1 g.2.1 g.2.2 hg
      rw [ha, hs]
      simp
    rw [List.map_congr_left hcg]
    have hcover : ∀ pr ∈ List.zip ins outs, (fun pr => imgShape (o.readImg pr.1)) pr ∈
        (shapeGroups (fun p => imgShape (o.readImg p)) ins outs).map Prod.fst := by
      intro pr hpr
      have hqf : pr ∈ (List.zip ins outs).filter
          (fun q => imgShape (o.readImg q.1) = imgShape (o.readImg pr.1)) :=
        List.mem_filter.mpr ⟨hpr, by simp⟩
      have hfind := findGroup_groupsGo (fun p => imgShape (o.readImg p))
        (imgShape (o.readImg pr.1)) (List.zip ins outs) []
      rcases hs : (List.zip ins outs).filter
          (fun q => imgShape (o.readImg q.1) = imgShape (o.readImg pr.1)) with _ | ⟨w, s'⟩
      · rw [hs] at hqf
        simp at hqf
      · rw [hs] at hfind
        simp only [findGroup, combineGroup] at hfind
        exact findGroup_isSome_mem _ _ _ hfind
    have hmap : (shapeGroups (fun p => imgShape (o.readImg p)) ins outs).map
        (fun g => ((List.zip ins outs).filter
          fun pr => imgShape (o.readImg pr.1) = g.1).length) =
        ((shapeGroups (fun p => imgShape (o.readImg p)) ins outs).map Prod.fst).map
          (fun k => ((List.zip ins outs).filter
            fun pr => imgShape (o.readImg pr.1) = k).length) := by
      rw [List.map_map]
      exact List.map_congr_left fun g _ => rfl
    rw [hmap,
      sum_length_filter_keys (fun pr : String × String => imgShape (o.readImg pr.1)) _
        hnodup _ hcover,
      List.length_zip, hlen, Nat.min_self]
  · intro p hp
    obtain ⟨q, hq⟩ := exists_pair_of_mem p ins outs hlen hp
    have hqf : (p, q) ∈ (List.zip ins outs).filter
        (fun pr => imgShape (o.readImg pr.1) = imgShape (o.readImg p)) :=
      List.mem_filter.mpr ⟨hq, by simp⟩
    have hfind := findGroup_groupsGo (fun p => imgShape (o.readImg p))
      (imgShape (o.readImg p)) (List.zip ins outs) []
    rcases hs : (List.zip ins outs).filter
        (fun pr => imgShape (o.readImg pr.1) = imgShape (o.readImg p)) with _ | ⟨w, s'⟩
    · rw [hs] at hqf
      simp at hqf
    · rw [hs] at hfind
      simp only [findGroup, combineGroup] at hfind
      refine ⟨(w :: s').map Prod.fst, (w :: s').map Prod.snd,
        (mem_groups_iff _ _ _ hnodup).mpr hfind, ?_⟩
      rw [hs] at hqf
      exact List.mem_map.mpr ⟨(p, q), hqf, rfl⟩

/-- C7 witness: the theorem at a concrete aligned one-pair request. -/
theorem claim_C7_grouping_witness :
    ((shapeGroups (fun p => imgShape (idNetOracle.readImg p)) ["a"] ["x"]).map Prod.fst).Nodup ∧
    (∀ k a b, (k, (a, b)) ∈ shapeGroups (fun p => imgShape (idNetOracle.readImg p)) ["a"] ["x"] →
      a = List.filter (fun p => imgShape (idNetOracle.readImg p) = k) ["a"] ∧
      a.length = b.length ∧
      List.zip a b =
        (List.zip ["a"] ["x"]).filter fun pr => imgShape (idNetOracle.readImg pr.1) = k) ∧
    ((shapeGroups (fun p => imgShape (idNetOracle.readImg p)) ["a"] ["x"]).map
      fun g => g.2.1.length).sum = (["a"] : List String).length ∧
    (∀ p ∈ (["a"] : List String), ∃ a b,
      (imgShape (idNetOracle.readImg p), (a, b)) ∈
        shapeGroups (fun p => imgShape (idNetOracle.readImg p)) ["a"] ["x"] ∧ p ∈ a) :=
  claim_C7_grouping idNetOracle ["a"] ["x"] rfl

theorem postProcess_ok (mask : Nat) (blend : ℚ) (x : List Img) (i j : Nat) (pred : Img)
    (hi : i < x.length) (hj : j < x.length) :
    ∃ img, postProcess mask blend x i j pred = .ok img := by
  have hxi : x[i]? = some x[i] := List.getElem?_eq_getElem hi
  have hxj : x[j]? = some x[j] := List.getElem?_eq_getElem hj
  unfold postProcess
  rcases hm : (if mask = 1 then maskStep x i j (clipCastImg pred)
      else Except.ok (clipCastImg pred)) with e | a
  · exfalso
    split at hm
    · unfold maskStep at hm
      rw [hxi, hxj] at hm
      exact absurd hm (by simp)
    · exact absurd hm (by simp)
  · dsimp only
    split
    · unfold blendStep
      rw [hxi]
      exact ⟨_, rfl⟩
    · exact ⟨a, rfl⟩

theorem postProcess_fail (mask : Nat) (blend : ℚ) (x : List Img) (i j : Nat) (pred : Img)
    (hi : x.length ≤ i) (hmb : mask = 1 ∨ 0 < blend) :
    postProcess mask blend x i j pred = .error .indexErr := by
  have hxi : x[i]? = none := List.getElem?_eq_none hi
  unfold postProcess
  rcases hmb with hm | hb
  · rw [if_pos hm]
    unfold maskStep
    rw [hxi]
  · rcases hm : (if mask = 1 then maskStep x i j (clipCastImg pred)
        else Except.ok (clipCastImg pred)) with e | a
    · split at hm
      · unfold maskStep at hm
        rw [hxi] at hm
        rcases x[j]? with _ | xj <;> simp_all
      · exact absurd hm (by simp)
    · dsimp only
      rw [if_pos hb]
      unfold blendStep
      rw [hxi]

theorem fillRun_ok (o : Oracle) (dev : String) (hnet : NetOk o) :
    ∀ (ps : List String) (x : List Img) (j : Nat),
      ∃ xf opr, fillRun o dev x j ps = .ok (xf, opr) ∧ xf.length = x.length ∧
        (ps = [] ∨ ∃ preds, opr = some preds ∧ x.length ≤ preds.length) := by
  intro ps
  induction ps with
  | nil => intro x j; exact ⟨x, none, rfl, rfl, Or.inl rfl⟩
  | cons p rest ih =>
    intro x j
    obtain ⟨ps', hps', hlen'⟩ := hnet dev (x.set j (o.readImg p))
    obtain ⟨xf, opr, hrec, hxf, hopr⟩ := ih (x.set j (o.readImg p)) (j + 1)
    have hxlen : (x.set j (o.readImg p)).length = x.length := List.length_set x j _
    cases opr with
    | none =>
      refine ⟨xf, some ps', ?_, by rwa [hxlen] at hxf, Or.inr ⟨ps', rfl, ?_⟩⟩
      · simp only [fillRun, hps', hrec]
      · rwa [hxlen] at hlen'
    | some pr =>
      have hbound : x.length ≤ pr.length := by
        rcases hopr with hrest | ⟨preds, he, hb⟩
        · subst hrest
          rw [show fillRun o dev (x.set j (o.readImg p)) (j + 1) [] =
              .ok (x.set j (o.readImg p), none) from rfl] at hrec
          simp at hrec
        · rw [Option.some.injEq] at he
          subst he
          rwa [hxlen] at hb
      refine ⟨xf, some pr, ?_, by rwa [hxlen] at hxf, Or.inr ⟨pr, rfl, hbound⟩⟩
      simp only [fillRun, hps', hrec]

theorem outLoop_ok (mask : Nat) (blend : ℚ) (x preds : List Img) (i : Nat)
    (hi : i < x.length) :
    ∀ (ps : List String) (j : Nat), j + ps.length ≤ preds.length → j + ps.length ≤ x.length →
      ∃ ws, outLoop mask blend x preds i j ps = (ws, none) ∧ ws.length = ps.length := by
  intro ps
  induction ps with
  | nil => intro j _ _; exact ⟨[], rfl, rfl⟩
  | cons p rest ih =>
    intro j hp hx
    simp only [List.length_cons] at hp hx
    have hj : j < preds.length := by omega
    have hjx : j < x.length := by omega
    have hpj : preds[j]? = some preds[j] := List.getElem?_eq_getElem hj
    obtain ⟨img, himg⟩ := postProcess_ok mask blend x i j preds[j] hi hjx
    obtain ⟨ws, hws, hwl⟩ := ih (j + 1) (by omega) (by omega)
    refine ⟨(p, img) :: ws, ?_, by simp [hwl]⟩
    simp only [outLoop, hpj, himg, hws]

theorem outLoop_fail (mask : Nat) (blend : ℚ) (x preds : List Img) (i j : Nat)
    (p : String) (rest : List String)
    (hi : x.length ≤ i) (hmb : mask = 1 ∨ 0 < blend) (hj : j < preds.length) :
    outLoop mask blend x preds i j (p :: rest) = ([], some RunErr.indexErr) := by
  have hpj : preds[j]? = some preds[j] := List.getElem?_eq_getElem hj
  simp only [outLoop, hpj, postProcess_fail mask blend x i j preds[j] hi hmb]

theorem batchLoop_step_good (o : Oracle) (dev : String) (B mask : Nat) (blend : ℚ)
    (shape : Shape) (data_in paths_out : List String) (hnet : NetOk o) (i k : Nat)
    (hB : 1 ≤ B) (hi : i < B)
    (hdata : (i + 1) * B ≤ data_in.length) (hout : (i + 1) * B ≤ paths_out.length) :
    ∃ ws, batchLoopGo o dev B mask blend shape data_in paths_out i (k + 1) =
      (ws ++ (batchLoopGo o dev B mask blend shape data_in paths_out (i + 1) k).1,
       (batchLoopGo o dev B mask blend shape data_in paths_out (i + 1) k).2) ∧
      ws.length = B := by
  have hmul : (i + 1) * B = i * B + B := by ring
  have hbinlen : ((data_in.drop (i * B)).take B).length = B := by
    simp only [List.length_take, List.length_drop]
    omega
  have hboutlen : ((paths_out.drop (i * B)).take B).length = B := by
    simp only [List.length_take, List.length_drop]
    omega
  have hbin_ne : (data_in.drop (i * B)).take B ≠ [] := by
    intro h
    rw [h] at hbinlen
    simp at hbinlen
    omega
  obtain ⟨xf, opr, hfill, hxf, hopr⟩ := fillRun_ok o dev hnet ((data_in.drop (i * B)).take B)
    (List.replicate B (zeroImg shape)) 0
  rcases hopr with hnil | ⟨preds, hpe, hple⟩
  · exact absurd hnil hbin_ne
  subst hpe
  have hx_len : xf.length = B := by rw [hxf]; simp
  have hple' : B ≤ preds.length := by simpa using hple
  obtain ⟨ws, hout_ok, hws⟩ := outLoop_ok mask blend xf preds i (by omega)
    ((paths_out.drop (i * B)).take B) 0 (by rw [hboutlen]; omega) (by rw [hboutlen]; omega)
  refine ⟨ws, ?_, hws.trans hboutlen⟩
  simp only [batchLoopGo, hfill, hout_ok]

theorem batchLoop_step_fail (o : Oracle) (dev : String) (B mask : Nat) (blend : ℚ)
    (shape : Shape) (data_in paths_out : List String) (hnet : NetOk o) (i k : Nat)
    (hB : 1 ≤ B) (hi : B ≤ i) (hmb : mask = 1 ∨ 0 < blend)
    (hdata : i * B < data_in.length) (hout : i * B < paths_out.length) :
    batchLoopGo o dev B mask blend shape data_in paths_out i (k + 1) =
      ([], some RunErr.indexErr) := by
  have hbinlen : 0 < ((data_in.drop (i * B)).take B).length := by
    simp only [List.length_take, List.length_drop]
    omega
  have hboutlen : 0 < ((paths_out.drop (i * B)).take B).length := by
    simp only [List.length_take, List.length_drop]
    omega
  have hbin_ne : (data_in.drop (i * B)).take B ≠ [] := List.ne_nil_of_length_pos hbinlen
  obtain ⟨xf, opr, hfill, hxf, hopr⟩ := fillRun_ok o dev hnet ((data_in.drop (i * B)).take B)
    (List.replicate B (zeroImg shape)) 0
  rcases hopr with hnil | ⟨preds, hpe, hple⟩
  · exact absurd hnil hbin_ne
  subst hpe
  have hx_len : xf.length = B := by rw [hxf]; simp
  have hple' : B ≤ preds.length := by simpa using hple
  rcases hbq : (paths_out.drop (i * B)).take B with _ | ⟨q, rest⟩
  · rw [hbq] at hboutlen
    simp at hboutlen
  have hfail := outLoop_fail mask blend xf preds i 0 q rest (by omega) hmb (by omega)
  simp only [batchLoopGo, hfill, hbq, hfail]

theorem batchLoop_crash (o : Oracle) (dev : String) (B mask : Nat) (blend : ℚ)
    (shape : Shape) (data_in paths_out : List String)
    (hnet : NetOk o) (hB : 1 ≤ B) (hmb : mask = 1 ∨ 0 < blend)
    (hlen : data_in.length = paths_out.length)
    (hsize : B * (B + 1) ≤ paths_out.length) :
    ∀ n i k : Nat, i + n = B → B < i + k →
      ∃ ws, batchLoopGo o dev B mask blend shape data_in paths_out i k =
        (ws, some RunErr.indexErr) ∧ ws.length = n * B := by
  have hBB : B * B + B ≤ paths_out.length := by
    have : B * (B + 1) = B * B + B := by ring
    omega
  intro n
  induction n with
  | zero =>
    intro i k hin hk
    have hi : B = i := by omega
    subst hi
    obtain ⟨k', rfl⟩ : ∃ k', k = k' + 1 := ⟨k - 1, by omega⟩
    rw [batchLoop_step_fail o dev B mask blend shape data_in paths_out hnet B k' hB le_rfl hmb
      (by omega) (by omega)]

    exact ⟨[], rfl, by simp⟩
  | succ m ih =>
    intro i k hin hk
    have hiB : i < B := by omega
    obtain ⟨k', rfl⟩ : ∃ k', k = k' + 1 := ⟨k - 1, by omega⟩
    have hbound : (i + 1) * B ≤ paths_out.length := by
      have h1 : (i + 1) * B ≤ B * B := Nat.mul_le_mul_right B (by omega)
      omega
    obtain ⟨ws, hstep, hwsl⟩ := batchLoop_step_good o dev B mask blend shape data_in paths_out
      hnet i k' hB hiB (by omega) hbound
    obtain ⟨ws', hrec, hwsl'⟩ := ih (i + 1) k' (by omega) (by omega)
    refine ⟨ws ++ ws', ?_, ?_⟩
    · rw [hstep, hrec]
    · rw [List.length_append, hwsl, hwsl', Nat.succ_mul, Nat.add_comm]

/-- C4: the mask threshold and the blend multiplicand index the batch
buffer with the outer batch index `i` instead of the per-image index
`j`.  Consequences, in order: (1) whenever mask or blend post-processing
is on and the number of full batches exceeds the batch size — with a
well-behaved network, aligned lists, and at least `B·(B+1)` outputs —
`x[i]` is out of bounds at the `(B+1)`-st batch and the whole call
aborts with an IndexError after exactly `B·B` writes; (2) with mask on,
the threshold applied to `x[j]` is 1 % of the maximum of buffer slot
`i`, not of the image's own maximum; (3) with blend on and mask off, the
result for output slot `j` depends only on buffer slot `i`: any buffer
agreeing at slot `i` — whatever image sits at the corresponding slot
`j` — post-processes identically. -/
theorem claim_C4_index_bug :
    (∀ (o : Oracle) (fuel : Nat) (sessDev : String) (data_in paths_out : List String)
        (m d : String) (B mask : Nat) (blend : ℚ),
      NetOk o → (mask = 1 ∨ 0 < blend) → 1 ≤ B →
      data_in.length = paths_out.length → B * (B + 1) ≤ paths_out.length →
      (transferF o fuel sessDev data_in paths_out m d B mask blend).err =
          some RunErr.indexErr ∧
        (transferF o fuel sessDev data_in paths_out m d B mask blend).writes.length =
          B * B) ∧
    (∀ (x : List Img) (i j : Nat) (pred : Img) (xi xj : Img),
      x[i]? = some xi → x[j]? = some xj →
      imgShape (imgMap (fun p => if imgMax xi * (1 / 100) < p then 1 else 0) xj) =
        imgShape (clipCastImg pred) →
      postProcess 1 0 x i j pred =
        .ok (imgMul (imgMap (fun p => if imgMax xi * (1 / 100) < p then 1 else 0) xj)
          (clipCastImg pred))) ∧
    (∀ (blend : ℚ) (x x' : List Img) (i j : Nat) (pred : Img),
      x[i]? = x'[i]? → 0 < blend →
      postProcess 0 blend x i j pred = postProcess 0 blend x' i j pred) := by
  refine ⟨?_, ?_, ?_⟩
  · intro o fuel sessDev data_in paths_out m d B mask blend hnet hmb hB hlen hsize
    have h2 : 2 ≤ B * (B + 1) := by
      calc 2 = 1 * 2 := by omega
      _ ≤ B * (B + 1) := Nat.mul_le_mul hB (by omega)
    rcases data_in with _ | ⟨d0, tl⟩
    · simp at hlen
      omega
    have hBpos : 0 < B := hB
    have hiters : B < paths_out.length / B := by
      have := (Nat.le_div_iff_mul_le hBpos).mpr (by
        calc (B + 1) * B = B * (B + 1) := by ring
        _ ≤ paths_out.length := hsize)
      omega
    obtain ⟨ws, hbl, hwsl⟩ := batchLoop_crash o sessDev B mask blend
      (imgShape (o.readImg d0)) (d0 :: tl) paths_out hnet hB hmb hlen hsize B 0
      (paths_out.length / B) (by omega) (by omega)
    have hB0 : ¬ B = 0 := by omega
    simp only [transferF, transferCore, hB0, if_false, hbl]
    exact ⟨trivial, hwsl⟩
  · intro x i j pred xi xj hxi hxj hshape
    unfold postProcess
    rw [if_pos rfl]
    unfold maskStep
    rw [hxi, hxj]
    simp only [one_div] at hshape
    simp [hshape]
  · intro blend x x' i j pred hxx' hb
    have h01 : ¬ ((0 : Nat) = 1) := by omega
    simp only [postProcess, if_neg h01, if_pos hb]
    unfold blendStep
    rw [hxx']

/-- C4 witness: part (1) at a 2-image, batch-size-1, mask-on request
with the identity network (the second batch indexes `x[1]` in a 1-slot
buffer); part (2) at a concrete one-slot buffer; part (3) at two buffers
sharing slot 0 but with different slot-1 contents. -/
theorem claim_C4_index_bug_witness :
    ((transferF idNetOracle 3 "/gpu:0" ["a", "b"] ["o1", "o2"] "m" "/gpu:0" 1 1 0).err =
        some RunErr.indexErr ∧
      (transferF idNetOracle 3 "/gpu:0" ["a", "b"] ["o1", "o2"] "m" "/gpu:0" 1 1 0).writes.length =
        1 * 1) ∧
    (postProcess 1 0 [[[[(100 : ℚ), 100, 100]]]] 0 0 [[[50, 50, 50]]] =
      .ok (imgMul
        (imgMap (fun p => if imgMax [[[(100 : ℚ), 100, 100]]] * (1 / 100) < p then 1 else 0)
          [[[(100 : ℚ), 100, 100]]])
        (clipCastImg [[[50, 50, 50]]]))) ∧
    (postProcess 0 (1 / 2) [[[[(4 : ℚ), 4, 4]]], [[[8, 8, 8]]]] 0 1 [[[50, 50, 50]]] =
      postProcess 0 (1 / 2) [[[[(4 : ℚ), 4, 4]]], [[[9, 9, 9]]]] 0 1 [[[50, 50, 50]]]) :=
  ⟨claim_C4_index_bug.1 idNetOracle 3 "/gpu:0" ["a", "b"] ["o1", "o2"] "m" "/gpu:0" 1 1 0
      (fun _ x => ⟨x, rfl, le_rfl⟩) (Or.inl rfl) le_rfl rfl (by decide),
   claim_C4_index_bug.2.1 [[[[(100 : ℚ), 100, 100]]]] 0 0 [[[50, 50, 50]]]
      [[[(100 : ℚ), 100, 100]]] [[[(100 : ℚ), 100, 100]]] rfl rfl
      (by simp [imgShape, imgMap, clipCastImg]),
   claim_C4_index_bug.2.2 (1 / 2) [[[[(4 : ℚ), 4, 4]]], [[[8, 8, 8]]]]
      [[[[(4 : ℚ), 4, 4]]], [[[9, 9, 9]]]] 0 1 [[[50, 50, 50]]] rfl (by norm_num)⟩

/-- C10: with mask = 0 and blend = 0 the pipeline is deterministic per
output path: the writes are a pure function of the input images (as
decoded from the `data_in` paths) and of the network, so two runs over
environments that agree there — in particular two runs over the same
environment — produce identical write sequences; and no post-processing
is applied: each output is exactly the clip-to-[0,255]-and-cast-to-8-bit
image of its prediction. -/
theorem claim_C10_determinism (o₁ o₂ : Oracle) (fuel : Nat) (ins outs : List String)
    (m d : String) (B : Nat)
    (hread : ∀ p ∈ ins, o₁.readImg p = o₂.readImg p) (hnet : o₁.net = o₂.net) :
    evalF o₁ fuel ins outs m d B 0 0 = evalF o₂ fuel ins outs m d B 0 0 ∧
    (∀ (x : List Img) (i j : Nat) (pred : Img),
      postProcess 0 0 x i j pred = .ok (clipCastImg pred)) := by
  constructor
  · exact evalF_oracle_congr o₁ o₂ hnet fuel ins outs m d B 0 0 hread
  · intro x i j pred
    norm_num [postProcess]

/-- C10 witness: two environments that agree on the two input paths
(they differ at the unused path `"unused"`) drive the pipeline to the
same result. -/
theorem claim_C10_determinism_witness :
    evalF idNetOracle 2 ["a", "b"] ["oa", "ob"] "m" "/gpu:0" 1 0 0 =
      evalF idNetOracle' 2 ["a", "b"] ["oa", "ob"] "m" "/gpu:0" 1 0 0 ∧
    (∀ (x : List Img) (i j : Nat) (pred : Img),
      postProcess 0 0 x i j pred = .ok (clipCastImg pred)) :=
  claim_C10_determinism idNetOracle idNetOracle' 2 ["a", "b"] ["oa", "ob"] "m" "/gpu:0" 1
    (by
      intro p hp
      simp only [List.mem_cons, List.not_mem_nil, or_false] at hp
      rcases hp with rfl | rfl <;>
        norm_num +decide [idNetOracle, idNetOracle'])
    rfl

/-- C8: the batch size actually used by `eval` is
`min(requested, len(outputs))`: the call behaves identically to one made
with the clamped value; the first session constructed (the primary
attempt) carries the clamped batch size; and when the primary attempt
exhausts resources, the fallback session carries the very same clamped
value. -/
theorem claim_C8_clamp (o : Oracle) (fuel : Nat) (ins outs : List String) (m d : String)
    (B mask : Nat) (blend : ℚ) :
    (evalF o fuel ins outs m d B mask blend =
      evalF o fuel ins outs m d (min outs.length B) mask blend) ∧
    ((evalF o (fuel + 1) ins outs m d B mask blend).sessions.head? =
      some (d, min outs.length B)) ∧
    ((transferF o fuel d ins outs m d (min outs.length B) mask blend).err =
        some (RunErr.tf TFErr.resourceExhausted) →
      (evalF o (fuel + 1) ins outs m d B mask blend).sessions =
        (d, min outs.length B) ::
            (transferF o fuel d ins outs m d (min outs.length B) mask blend).sessions ++
          ("/cpu:0", min outs.length B) ::
            (transferF o fuel "/cpu:0" ins outs m d (min outs.length B) mask blend).sessions) := by
  have hmin : min outs.length (min outs.length B) = min outs.length B := by
    rw [← Nat.min_assoc, Nat.min_self]
  refine ⟨?_, ?_, fun h => ?_⟩
  · cases fuel with
    | zero => rfl
    | succ f => rw [evalF_succ, evalF_succ, hmin]
  · rw [evalF_succ]
    dsimp only
    split <;> simp
  · rw [evalF_succ]
    simp only [transferF] at h ⊢
    simp [h]

/-- C8 witness: the theorem at a concrete one-image request with an
oversized requested batch size of 5, clamped to 1. -/
theorem claim_C8_clamp_witness :
    (evalF reOracle 1 ["a"] ["o"] "m" "/gpu:0" 5 0 0 =
      evalF reOracle 1 ["a"] ["o"] "m" "/gpu:0" 1 0 0) ∧
    ((evalF reOracle 2 ["a"] ["o"] "m" "/gpu:0" 5 0 0).sessions.head? =
      some ("/gpu:0", 1)) ∧
    ((evalF reOracle 2 ["a"] ["o"] "m" "/gpu:0" 5 0 0).sessions =
      ("/gpu:0", 1) :: (transferF reOracle 1 "/gpu:0" ["a"] ["o"] "m" "/gpu:0" 1 0 0).sessions ++
        ("/cpu:0", 1) ::
          (transferF reOracle 1 "/cpu:0" ["a"] ["o"] "m" "/gpu:0" 1 0 0).sessions) :=
  ⟨(claim_C8_clamp reOracle 1 ["a"] ["o"] "m" "/gpu:0" 5 0 0).1,
   (claim_C8_clamp reOracle 1 ["a"] ["o"] "m" "/gpu:0" 5 0 0).2.1,
   (claim_C8_clamp reOracle 1 ["a"] ["o"] "m" "/gpu:0" 5 0 0).2.2 (by
    norm_num +decide [transferF, transferCore, batchLoopGo, fillRun, outLoop, postProcess,
      maskStep, blendStep, reOracle, imgShape, imgMap, imgMul, imgScale, imgMax, clipCast,
      clipCastImg, cropTo, zeroImg, evalF, List.replicate, List.headD, Except.instMonad,
      Except.bind, Except.map, Except.pure])⟩

end QuickPaint
